import Mathlib

/-!
Verification of the proc-redirect logic in OpenCue cuegui `Redirect.py`
(`RedirectControls.detect`, `RedirectWidget.update`, `RedirectWidget.redirect`
and the two safety checks `__is_cross_show_safe` / `__is_burst_safe`),
shallowly embedded: the GUI state (spin boxes, checked rows, the `__hosts`
dictionary) is explicit data, the remote service and the user dialogs are
inputs (records and answer oracles), Python dicts are association lists with
insertion order, and Python exceptions are `Except`.  Float-valued core
counts (`reserved_cores`, `idle_cores`, subscription `burst`) are modelled
as integers, so the `int()` coercions the source applies to them are the
identity; the fractional spin-box value of `detect` is kept exact as a
rational.
-/

namespace Redirect

/-- A proc as the service returns it: the `proc.data` fields `Redirect.py`
reads, plus `job_show` (the show of the proc's job, reached through
`proc.getJob().show()`) and `alloc_name` (the allocation attribute the
service-side `getProcs` search filters on). -/
structure ProcData where
  name : String
  show_name : String
  job_name : String
  job_show : String
  redirect_target : String
  services : List String
  group_name : String
  reserved_cores : ℤ
  reserved_memory : ℤ
  dispatch_time : ℤ
  alloc_name : String
deriving DecidableEq

/-- The `host.data` fields read after `opencue.api.findHost(name)`. -/
structure HostInfo where
  idle_cores : ℤ
  idle_memory : ℤ
  alloc_name : String
deriving DecidableEq

/-- A subscription of the target show: the `s.data` fields
`__is_burst_safe` reads. -/
structure SubData where
  name : String
  allocation_name : String
  burst : ℤ
  reserved_cores : ℤ
deriving DecidableEq

/-- A `job.data.layers` entry as `RedirectControls.detect` reads it. -/
structure LayerData where
  min_cores : ℚ
  min_memory : ℤ
deriving DecidableEq

/-- Python `int()` on a rational: truncation toward zero. -/
def pyInt (q : ℚ) : ℤ := if 0 ≤ q then ⌊q⌋ else ⌈q⌉

/-- Python `s.split("/")[0]`: the longest slash-free prefix of `s`. -/
def pySplitHead (s : String) : String :=
  String.mk (s.toList.takeWhile (fun c => decide (c ≠ '/')))

/-- Python `s.rstrip(chars)`: drops from the right every character that is a
member of the character set `chars`. -/
def pyRstrip (s chars : String) : String :=
  String.mk ((s.toList.reverse.dropWhile (fun c => chars.toList.contains c)).reverse)

/-- Does the second character list start with the first one? -/
def charsStartWith : List Char → List Char → Bool
  | [], _ => true
  | _ :: _, [] => false
  | a :: as, b :: bs => a = b && charsStartWith as bs

/-- Contiguous containment of the first character list in the second. -/
def charsContain (needle : List Char) : List Char → Bool
  | [] => charsStartWith needle []
  | c :: rest => charsStartWith needle (c :: rest) || charsContain needle rest

/-- Python `needle in hay` on strings: contiguous-substring containment. -/
def pyStrIn (needle hay : String) : Bool :=
  charsContain needle.toList hay.toList

/-- Python `dict` lookup `d.get(k)` on an insertion-ordered association
list. -/
def dictGet {α : Type} : List (String × α) → String → Option α
  | [], _ => none
  | (k, v) :: rest, key => if k = key then some v else dictGet rest key

/-- Python `dict` assignment `d[k] = v`: replaces the value in place when the
key exists, otherwise appends the pair at the end (insertion order). -/
def dictSet {α : Type} : List (String × α) → String → α → List (String × α)
  | [], key, val => [(key, val)]
  | (k, v) :: rest, key, val =>
    if k = key then (key, val) :: rest else (k, v) :: dictSet rest key val

theorem dictGet_dictSet_eq {α : Type} (d : List (String × α)) (k : String) (v : α) :
    dictGet (dictSet d k v) k = some v := by
  induction d with
  | nil => simp [dictGet, dictSet]
  | cons hd tl ih =>
    obtain ⟨k', v'⟩ := hd
    by_cases h : k' = k <;> simp [dictGet, dictSet, h, ih]

theorem dictGet_dictSet_ne {α : Type} (d : List (String × α)) (k n : String) (v : α)
    (h : n ≠ k) : dictGet (dictSet d k v) n = dictGet d n := by
  have hkn : ¬ k = n := fun hc => h hc.symm
  induction d with
  | nil => simp [dictGet, dictSet, hkn]
  | cons hd tl ih =>
    obtain ⟨k', v'⟩ := hd
    by_cases hk : k' = k
    · subst hk
      simp [dictGet, dictSet, hkn]
    · by_cases hn : k' = n
      · subst hn
        simp [dictGet, dictSet, hk]
      · simp [dictGet, dictSet, hk, hn, ih]

theorem mem_of_dictGet_eq_some {α : Type} {d : List (String × α)} {k : String} {v : α}
    (h : dictGet d k = some v) : (k, v) ∈ d := by
  induction d with
  | nil => simp [dictGet] at h
  | cons hd tl ih =>
    obtain ⟨k', v'⟩ := hd
    by_cases hk : k' = k
    · subst hk
      simp [dictGet] at h
      simp [h]
    · simp [dictGet, hk] at h
      exact List.mem_cons_of_mem _ (ih h)

theorem dictGet_eq_some_of_mem {α : Type} {d : List (String × α)} {k : String} {v : α}
    (hnd : (d.map Prod.fst).Nodup) (h : (k, v) ∈ d) : dictGet d k = some v := by
  induction d with
  | nil => simp at h
  | cons hd tl ih =>
    obtain ⟨k', v'⟩ := hd
    simp only [List.map_cons, List.nodup_cons] at hnd
    rcases List.mem_cons.mp h with h1 | h1
    · simp only [Prod.mk.injEq] at h1
      simp [dictGet, h1.1, h1.2]
    · have hne : k' ≠ k := by
        intro hc
        subst hc
        exact hnd.1 (List.mem_map.mpr ⟨(k', v), h1, rfl⟩)
      simp [dictGet, hne, ih hnd.2 h1]

theorem dictGet_eq_none_iff {α : Type} (d : List (String × α)) (k : String) :
    dictGet d k = none ↔ k ∉ d.map Prod.fst := by
  induction d with
  | nil => simp [dictGet]
  | cons hd tl ih =>
    obtain ⟨k', v'⟩ := hd
    by_cases hk : k' = k
    · subst hk
      simp [dictGet]
    · simp only [dictGet, if_neg hk, List.map_cons, List.mem_cons]
      rw [ih]
      constructor
      · intro h hc
        rcases hc with hc | hc
        · exact hk hc.symm
        · exact h hc
      · intro h hc
        exact h (Or.inr hc)

theorem keys_dictSet_of_mem {α : Type} (d : List (String × α)) (k : String) (v : α)
    (h : k ∈ d.map Prod.fst) :
    (dictSet d k v).map Prod.fst = d.map Prod.fst := by
  induction d with
  | nil => simp at h
  | cons hd tl ih =>
    obtain ⟨k', v'⟩ := hd
    by_cases hk : k' = k
    · simp [dictSet, hk]
    · simp only [List.map_cons, List.mem_cons] at h
      rcases h with h1 | h1
      · exact absurd h1.symm hk
      · simp [dictSet, hk, ih h1]

theorem keys_dictSet_of_not_mem {α : Type} (d : List (String × α)) (k : String) (v : α)
    (h : k ∉ d.map Prod.fst) :
    (dictSet d k v).map Prod.fst = d.map Prod.fst ++ [k] := by
  induction d with
  | nil => simp [dictSet]
  | cons hd tl ih =>
    obtain ⟨k', v'⟩ := hd
    simp only [List.map_cons, List.mem_cons] at h
    push_neg at h
    have hk : ¬ k' = k := fun hc => h.1 hc.symm
    simp [dictSet, hk, ih h.2]

theorem keys_dictSet_nodup {α : Type} (d : List (String × α)) (k : String) (v : α)
    (hnd : (d.map Prod.fst).Nodup) : ((dictSet d k v).map Prod.fst).Nodup := by
  by_cases h : k ∈ d.map Prod.fst
  · rw [keys_dictSet_of_mem d k v h]
    exact hnd
  · rw [keys_dictSet_of_not_mem d k v h]
    simp [List.nodup_append, hnd, h]

theorem mem_dictSet_iff {α : Type} (d : List (String × α)) (k : String) (v : α)
    (hnd : (d.map Prod.fst).Nodup) (n : String) (e : α) :
    (n, e) ∈ dictSet d k v ↔ ((n = k ∧ e = v) ∨ (n ≠ k ∧ (n, e) ∈ d)) := by
  induction d with
  | nil =>
    constructor
    · intro h
      simp [dictSet] at h
      exact Or.inl h
    · intro h
      rcases h with ⟨h1, h2⟩ | ⟨_, h2⟩
      · simp [dictSet, h1, h2]
      · simp at h2
  | cons hd tl ih =>
    obtain ⟨k', v'⟩ := hd
    simp only [List.map_cons, List.nodup_cons] at hnd
    by_cases hk : k' = k
    · subst hk
      simp only [dictSet, if_pos rfl]
      constructor
      · intro h
        rcases List.mem_cons.mp h with h1 | h1
        · simp only [Prod.mk.injEq] at h1
          exact Or.inl h1
        · right
          refine ⟨?_, List.mem_cons_of_mem _ h1⟩
          intro hc
          subst hc
          exact hnd.1 (List.mem_map.mpr ⟨(n, e), h1, rfl⟩)
      · intro h
        rcases h with ⟨h1, h2⟩ | ⟨h1, h2⟩
        · simp [h1, h2]
        · rcases List.mem_cons.mp h2 with h3 | h3
          · simp only [Prod.mk.injEq] at h3
            exact absurd h3.1 h1
          · exact List.mem_cons_of_mem _ h3
    · simp only [dictSet, if_neg hk]
      constructor
      · intro h
        rcases List.mem_cons.mp h with h1 | h1
        · simp only [Prod.mk.injEq] at h1
          right
          constructor
          · intro hc
            exact hk (h1.1 ▸ hc)
          · simp [h1.1, h1.2]
        · rcases (ih hnd.2).mp h1 with h2 | h2
          · exact Or.inl h2
          · exact Or.inr ⟨h2.1, List.mem_cons_of_mem _ h2.2⟩
      · intro h
        rcases h with ⟨h1, h2⟩ | ⟨h1, h2⟩
        · exact List.mem_cons_of_mem _ ((ih hnd.2).mpr (Or.inl ⟨h1, h2⟩))
        · rcases List.mem_cons.mp h2 with h3 | h3
          · exact List.mem_cons.mpr (Or.inl h3)
          · exact List.mem_cons_of_mem _ ((ih hnd.2).mpr (Or.inr ⟨h1, h3⟩))

/-- The value stored in the `hosts` dictionary of `RedirectWidget.update`
for one host (the wrapper object in the `host` slot is identified by the
dictionary key, the host name). -/
structure HostEntry where
  procs : List ProcData
  mem : ℤ
  cores : ℤ
  time : ℤ
  ok : Bool
  alloc : String
deriving DecidableEq

instance : Inhabited HostEntry :=
  ⟨{ procs := [], mem := 0, cores := 0, time := 0, ok := false, alloc := "" }⟩

/-- The inputs of one `RedirectWidget.update` run: the control settings read
during the loop, the remote lookups (`findHost`), the `re.match` oracle for
the exclude regex, and the progress-dialog cancellation oracle (indexed by
the loop iteration). -/
structure UpdateEnv where
  showName : String
  targetJob : String
  limit : ℕ
  jobRegex : String
  matchRegex : String → String → Bool
  serviceFilter : String
  groupFilter : List String
  minCores : ℤ
  minMemory : ℤ
  cutoffTime : ℤ
  now : ℤ
  findHost : String → HostInfo
  canceled : ℕ → Bool
  selectedAllocs : List String

/-- The mutable state of the `update` loop: the `hosts` dictionary, the `ok`
counter, and the rows appended to the results model (host name with the
entry snapshot rendered by `__addHost`). -/
structure UpdateState where
  hosts : List (String × HostEntry)
  okCount : ℕ
  results : List (String × HostEntry)
deriving DecidableEq

/-- `proc.data.name.split("/")[0]`, the host-name part of a proc name. -/
def hostNameOf (p : ProcData) : String := pySplitHead p.name

/-- The fresh dictionary entry built the first time a host is seen:
`mem` and `cores` start from the idle resources (the source applies `int()`
to the idle cores, the identity on the integral model), `time` from zero. -/
def newEntry (hi : HostInfo) : HostEntry :=
  { procs := [], mem := hi.idle_memory, cores := hi.idle_cores,
    time := 0, ok := false, alloc := hi.alloc_name }

/-- The entry a host accumulates after gathering the procs `ps`: idle
resources plus the sums of the gathered procs' reservations, and the summed
run times `now - dispatch_time`. -/
def entryOf (env : UpdateEnv) (n : String) (ps : List ProcData) (b : Bool) : HostEntry :=
  { procs := ps
  , mem := (env.findHost n).idle_memory + (ps.map (fun p => p.reserved_memory)).sum
  , cores := (env.findHost n).idle_cores + (ps.map (fun p => p.reserved_cores)).sum
  , time := (ps.map (fun p => env.now - p.dispatch_time)).sum
  , ok := b
  , alloc := (env.findHost n).alloc_name }

/-- The acceptance test of `update`: accumulated cores at least the minimum
cores, accumulated memory at least the minimum memory, and accumulated run
time strictly below the proc-hour cutoff. -/
def meets (env : UpdateEnv) (e : HostEntry) : Bool :=
  decide (env.minCores ≤ e.cores) && decide (env.minMemory ≤ e.mem) &&
    decide (e.time < env.cutoffTime)

/-- One gathered proc appended to a host entry: the four accumulator
mutations of the `update` loop body. -/
def growEntry (env : UpdateEnv) (e : HostEntry) (p : ProcData) : HostEntry :=
  { e with procs := e.procs ++ [p]
         , mem := e.mem + p.reserved_memory
         , cores := e.cores + p.reserved_cores
         , time := e.time + (env.now - p.dispatch_time) }

/-- The body of the `update` loop for a proc that has passed every filter:
find or create the host entry, skip hosts already marked ok, accumulate the
proc, and append a result row (marking the host ok and bumping the counter)
when the thresholds are first met. -/
def updateStep (env : UpdateEnv) (st : UpdateState) (p : ProcData) : UpdateState :=
  let n := hostNameOf p
  let e0 := (dictGet st.hosts n).getD (newEntry (env.findHost n))
  if e0.ok then st
  else
    let e1 : HostEntry := growEntry env e0 p
    if meets env e1 then
      { hosts := dictSet st.hosts n { e1 with ok := true }
      , okCount := st.okCount + 1
      , results := st.results ++ [(n, { e1 with ok := true })] }
    else
      { st with hosts := dictSet st.hosts n e1 }

/-- The `update` proc loop: cancellation check, the show / target-job /
already-redirected skips, the result-limit break, the exclude-regex,
required-service and include-group filters, then `updateStep`. -/
def updateLoop (env : UpdateEnv) : ℕ → List ProcData → UpdateState → UpdateState
  | _, [], st => st
  | i, p :: rest, st =>
    if env.canceled i then st
    else if p.show_name ≠ env.showName then updateLoop env (i + 1) rest st
    else if p.job_name = env.targetJob then updateLoop env (i + 1) rest st
    else if p.redirect_target ≠ "" then updateLoop env (i + 1) rest st
    else if env.limit ≤ st.okCount then st
    else if env.jobRegex ≠ "" && env.matchRegex env.jobRegex p.job_name then
      updateLoop env (i + 1) rest st
    else if env.serviceFilter ≠ "" && !(p.services.contains env.serviceFilter) then
      updateLoop env (i + 1) rest st
    else if env.groupFilter ≠ [] && !(env.groupFilter.contains p.group_name) then
      updateLoop env (i + 1) rest st
    else updateLoop env (i + 1) rest (updateStep env st p)

/-- Modelled from the spec: the remote service's proc search
(`opencue.api.getProcs(show=..., alloc=...)` is implemented by the cuebot
server, which is not part of this source file); per the spec the listing is
"restricted to the selected show and the selected allocations". -/
def getProcs (remote : List ProcData) (shows allocs : List String) : List ProcData :=
  remote.filter (fun p => shows.contains p.show_name && allocs.contains p.alloc_name)

/-- The initial loop state of `update`: empty dictionary, zero counter,
cleared results model. -/
def initState : UpdateState := { hosts := [], okCount := 0, results := [] }

/-- One whole `RedirectWidget.update` run over the remote proc table. -/
def runUpdate (env : UpdateEnv) (remote : List ProcData) : UpdateState :=
  updateLoop env 0 (getProcs remote [env.showName] env.selectedAllocs) initState

/-- Everything the `update` loop filters guarantee about a proc that reaches
`updateStep` for the host `n`. -/
def procOk (env : UpdateEnv) (input : List ProcData) (n : String) (p : ProcData) : Prop :=
  p ∈ input ∧ hostNameOf p = n ∧ p.show_name = env.showName ∧
  p.job_name ≠ env.targetJob ∧ p.redirect_target = "" ∧
  (env.jobRegex ≠ "" → env.matchRegex env.jobRegex p.job_name = false) ∧
  (env.serviceFilter ≠ "" → p.services.contains env.serviceFilter = true) ∧
  (env.groupFilter ≠ [] → env.groupFilter.contains p.group_name = true)

/-- The loop invariant of `RedirectWidget.update`: the dictionary keys are
distinct, every entry is the exact accumulation of its gathered procs over
the host's idle resources, gathered procs passed every filter, an entry is
marked ok exactly when the thresholds are met first at its last gathered
proc, the result rows are the ok entries in bijection, and the ok counter
equals the number of result rows and never exceeds the limit. -/
structure Inv (env : UpdateEnv) (input : List ProcData) (st : UpdateState) : Prop where
  hkeys : (st.hosts.map Prod.fst).Nodup
  hcons : ∀ n e, (n, e) ∈ st.hosts → e = entryOf env n e.procs e.ok
  hsrc : ∀ n e, (n, e) ∈ st.hosts → ∀ p ∈ e.procs, procOk env input n p
  hok : ∀ n e, (n, e) ∈ st.hosts → e.ok = true →
    meets env e = true ∧
    ∀ k, 0 < k → k < e.procs.length →
      meets env (entryOf env n (e.procs.take k) false) = false
  hnotok : ∀ n e, (n, e) ∈ st.hosts → e.ok = false →
    ∀ k, 0 < k → k ≤ e.procs.length →
      meets env (entryOf env n (e.procs.take k) false) = false
  hrk : (st.results.map Prod.fst).Nodup
  hcount : st.results.length = st.okCount
  hle : st.okCount ≤ env.limit
  hres : ∀ n e, (n, e) ∈ st.results ↔ ((n, e) ∈ st.hosts ∧ e.ok = true)

theorem entryOf_nil (env : UpdateEnv) (n : String) (b : Bool) :
    entryOf env n [] b = { newEntry (env.findHost n) with ok := b } := by
  simp [entryOf, newEntry]

theorem growEntry_entryOf (env : UpdateEnv) (n : String) (ps : List ProcData)
    (p : ProcData) (b : Bool) :
    growEntry env (entryOf env n ps b) p = entryOf env n (ps ++ [p]) b := by
  simp [growEntry, entryOf, add_assoc]

theorem entryOf_mark (env : UpdateEnv) (n : String) (ps : List ProcData) :
    ({ entryOf env n ps false with ok := true } : HostEntry) = entryOf env n ps true := by
  simp [entryOf]

/-- `meets` only reads the accumulators, never the ok flag. -/
theorem meets_entryOf_ok (env : UpdateEnv) (n : String) (ps : List ProcData) (b b' : Bool) :
    meets env (entryOf env n ps b) = meets env (entryOf env n ps b') := by
  simp [meets, entryOf]

theorem inv_step (env : UpdateEnv) (input : List ProcData) (st : UpdateState)
    (p : ProcData) (hInv : Inv env input st) (hcnt : st.okCount < env.limit)
    (hpOk : procOk env input (hostNameOf p) p) :
    Inv env input (updateStep env st p) := by
  simp only [updateStep]
  set n := hostNameOf p with hn
  set e0 : HostEntry := (dictGet st.hosts n).getD (newEntry (env.findHost n)) with he0def
  -- facts about the looked-up or fresh entry
  have hbase : e0 = entryOf env n e0.procs e0.ok ∧
      (∀ q ∈ e0.procs, procOk env input n q) ∧
      (e0.ok = false → ∀ k, 0 < k → k ≤ e0.procs.length →
        meets env (entryOf env n (e0.procs.take k) false) = false) := by
    cases hget : dictGet st.hosts n with
    | some e =>
      have he0 : e0 = e := by rw [he0def, hget]; rfl
      have hmem := mem_of_dictGet_eq_some hget
      subst he0
      exact ⟨hInv.hcons n e0 hmem, hInv.hsrc n e0 hmem,
        fun hko => hInv.hnotok n e0 hmem hko⟩
    | none =>
      have he0 : e0 = newEntry (env.findHost n) := by rw [he0def, hget]; rfl
      refine ⟨?_, ?_, ?_⟩
      · rw [he0]
        simp [newEntry, entryOf]
      · rw [he0]
        intro q hq
        simp [newEntry] at hq
      · rw [he0]
        intro _ k hk hk'
        simp only [newEntry, List.length_nil] at hk'
        exfalso
        omega
  obtain ⟨he0acc, he0src, he0pre⟩ := hbase
  -- e0 marked ok means it came from the dictionary, so no row changes
  by_cases hok : e0.ok = true
  · rw [if_pos hok]
    exact hInv
  · rw [if_neg hok]
    have hokf : e0.ok = false := by
      cases h : e0.ok
      · rfl
      · exact absurd h hok
    have he0acc' : e0 = entryOf env n e0.procs false := by
      conv_lhs => rw [he0acc]
      rw [hokf]
    -- the grown entry is the accumulation over the extended proc list
    have hE1 : growEntry env e0 p = entryOf env n (e0.procs ++ [p]) false := by
      calc growEntry env e0 p
          = growEntry env (entryOf env n e0.procs false) p := by rw [← he0acc']
        _ = entryOf env n (e0.procs ++ [p]) false := growEntry_entryOf ..
    -- no result row exists yet for this host
    have hnres : ∀ e', (n, e') ∉ st.results := by
      intro e' hr
      obtain ⟨hh, hetrue⟩ := (hInv.hres n e').mp hr
      have hde' : dictGet st.hosts n = some e' := dictGet_eq_some_of_mem hInv.hkeys hh
      have he0e' : e0 = e' := by rw [he0def, hde']; rfl
      rw [← he0e', hokf] at hetrue
      exact Bool.false_ne_true hetrue
    -- membership in the updated dictionary
    have hmemset : ∀ (x : HostEntry) (m : String) (e : HostEntry),
        (m, e) ∈ dictSet st.hosts n x ↔ ((m = n ∧ e = x) ∨ (m ≠ n ∧ (m, e) ∈ st.hosts)) :=
      fun x m e => mem_dictSet_iff st.hosts n x hInv.hkeys m e
    have hprefail : ∀ k, 0 < k → k ≤ e0.procs.length →
        meets env (entryOf env n ((e0.procs ++ [p]).take k) false) = false := by
      intro k hk hk'
      rw [List.take_append_of_le_length hk']
      exact he0pre hokf k hk hk'
    by_cases hmeets : meets env (growEntry env e0 p) = true
    · rw [if_pos hmeets]
      set ef : HostEntry := { growEntry env e0 p with ok := true } with hefdef
      have hef : ef = entryOf env n (e0.procs ++ [p]) true := by
        rw [hefdef, hE1, entryOf_mark]
      have hefok : ef.ok = true := by rw [hef]; rfl
      have hefprocs : ef.procs = e0.procs ++ [p] := by rw [hef]; rfl
      have hmeets' : meets env ef = true := by
        rw [hef, ← entryOf_mark, ← hE1]
        exact hmeets
      constructor
      · exact keys_dictSet_nodup st.hosts n ef hInv.hkeys
      · intro m e hme
        rcases (hmemset ef m e).mp hme with ⟨hm, he⟩ | ⟨hm, he⟩
        · subst hm; subst he
          rw [hefprocs, hefok, ← hef]
        · exact hInv.hcons m e he
      · intro m e hme q hq
        rcases (hmemset ef m e).mp hme with ⟨hm, he⟩ | ⟨hm, he⟩
        · subst hm; subst he
          rw [hefprocs] at hq
          rcases List.mem_append.mp hq with hq | hq
          · exact he0src q hq
          · rw [List.mem_singleton.mp hq]
            exact hpOk
        · exact hInv.hsrc m e he q hq
      · intro m e hme hetrue
        rcases (hmemset ef m e).mp hme with ⟨hm, he⟩ | ⟨hm, he⟩
        · subst hm; subst he
          refine ⟨hmeets', ?_⟩
          intro k hk hklt
          rw [hefprocs] at hklt ⊢
          simp only [List.length_append, List.length_singleton] at hklt
          exact hprefail k hk (by omega)
        · exact hInv.hok m e he hetrue
      · intro m e hme hefalse
        rcases (hmemset ef m e).mp hme with ⟨hm, he⟩ | ⟨hm, he⟩
        · subst hm; subst he
          rw [hefok] at hefalse
          exact absurd hefalse (by simp)
        · exact hInv.hnotok m e he hefalse
      · rw [List.map_append]
        simp only [List.map_cons, List.map_nil]
        rw [List.nodup_append]
        refine ⟨hInv.hrk, List.nodup_singleton n, ?_⟩
        intro m hm hm'
        simp only [List.mem_singleton] at hm'
        subst hm'
        obtain ⟨pr, hpr, hprfst⟩ := List.mem_map.mp hm
        obtain ⟨m', e'⟩ := pr
        simp only at hprfst
        subst hprfst
        exact hnres e' hpr
      · simp [hInv.hcount]
      · show st.okCount + 1 ≤ env.limit
        omega
      · intro m e
        constructor
        · intro hr
          rcases List.mem_append.mp hr with hr | hr
          · obtain ⟨hh, het⟩ := (hInv.hres m e).mp hr
            have hmn : m ≠ n := by
              intro hc
              subst hc
              exact hnres e hr
            exact ⟨(hmemset ef m e).mpr (Or.inr ⟨hmn, hh⟩), het⟩
          · rw [List.mem_singleton] at hr
            have hm : m = n := congrArg Prod.fst hr
            have he : e = ef := congrArg Prod.snd hr
            subst hm; subst he
            exact ⟨(hmemset ef n ef).mpr (Or.inl ⟨rfl, rfl⟩), hefok⟩
        · intro ⟨hh, het⟩
          rcases (hmemset ef m e).mp hh with ⟨hm, he⟩ | ⟨hm, he⟩
          · subst hm; subst he
            exact List.mem_append.mpr (Or.inr (List.mem_singleton.mpr rfl))
          · exact List.mem_append.mpr (Or.inl ((hInv.hres m e).mpr ⟨he, het⟩))
    · rw [if_neg hmeets]
      have hmeetsf : meets env (growEntry env e0 p) = false := by
        cases h : meets env (growEntry env e0 p)
        · rfl
        · exact absurd h hmeets
      have hE1ok : (growEntry env e0 p).ok = false := by rw [hE1]; rfl
      have hE1procs : (growEntry env e0 p).procs = e0.procs ++ [p] := by rw [hE1]; rfl
      constructor
      · exact keys_dictSet_nodup st.hosts n _ hInv.hkeys
      · intro m e hme
        rcases (hmemset _ m e).mp hme with ⟨hm, he⟩ | ⟨hm, he⟩
        · subst hm; subst he
          rw [hE1procs, hE1ok, ← hE1]
        · exact hInv.hcons m e he
      · intro m e hme q hq
        rcases (hmemset _ m e).mp hme with ⟨hm, he⟩ | ⟨hm, he⟩
        · subst hm; subst he
          rw [hE1procs] at hq
          rcases List.mem_append.mp hq with hq | hq
          · exact he0src q hq
          · rw [List.mem_singleton.mp hq]
            exact hpOk
        · exact hInv.hsrc m e he q hq
      · intro m e hme hetrue
        rcases (hmemset _ m e).mp hme with ⟨hm, he⟩ | ⟨hm, he⟩
        · subst hm; subst he
          rw [hE1ok] at hetrue
          exact absurd hetrue (by simp)
        · exact hInv.hok m e he hetrue
      · intro m e hme hefalse
        rcases (hmemset _ m e).mp hme with ⟨hm, he⟩ | ⟨hm, he⟩
        · subst hm; subst he
          intro k hk hkle
          rw [hE1procs] at hkle ⊢
          simp only [List.length_append, List.length_singleton] at hkle
          rcases Nat.eq_or_lt_of_le hkle with heq | hlt2
          · have hfull : (e0.procs ++ [p]).take k = e0.procs ++ [p] := by
              rw [heq]
              have hlen : e0.procs.length + 1 = (e0.procs ++ [p]).length := by simp
              rw [hlen, List.take_length]
            rw [hfull, ← hE1]
            exact hmeetsf
          · exact hprefail k hk (by omega)
        · exact hInv.hnotok m e he hefalse
      · exact hInv.hrk
      · exact hInv.hcount
      · exact hInv.hle
      · intro m e
        constructor
        · intro hr
          obtain ⟨hh, het⟩ := (hInv.hres m e).mp hr
          have hmn : m ≠ n := by
            intro hc
            subst hc
            exact hnres e hr
          exact ⟨(hmemset _ m e).mpr (Or.inr ⟨hmn, hh⟩), het⟩
        · intro ⟨hh, het⟩
          rcases (hmemset _ m e).mp hh with ⟨hm, he⟩ | ⟨hm, he⟩
          · subst hm; subst he
            rw [hE1ok] at het
            exact absurd het (by simp)
          · exact (hInv.hres m e).mpr ⟨he, het⟩

theorem inv_loop (env : UpdateEnv) (input : List ProcData) (l : List ProcData) :
    ∀ (i : ℕ) (st : UpdateState), Inv env input st → (∀ p ∈ l, p ∈ input) →
      Inv env input (updateLoop env i l st) := by
  induction l with
  | nil =>
    intro i st hInv _
    simpa [updateLoop] using hInv
  | cons p rest ih =>
    intro i st hInv hsub
    have hsub' : ∀ q ∈ rest, q ∈ input := fun q hq => hsub q (List.mem_cons_of_mem _ hq)
    have hpin : p ∈ input := hsub p (List.mem_cons_self p rest)
    rw [updateLoop]
    split_ifs with h1 h2 h3 h4 h5 h6 h7 h8
    · exact hInv
    · exact ih (i + 1) st hInv hsub'
    · exact ih (i + 1) st hInv hsub'
    · exact ih (i + 1) st hInv hsub'
    · exact hInv
    · exact ih (i + 1) st hInv hsub'
    · exact ih (i + 1) st hInv hsub'
    · exact ih (i + 1) st hInv hsub'
    · refine ih (i + 1) (updateStep env st p) ?_ hsub'
      have hcnt : st.okCount < env.limit := by
        rcases Nat.lt_or_ge st.okCount env.limit with h | h
        · exact h
        · exact absurd h h5
      refine inv_step env input st p hInv hcnt ?_
      refine ⟨hpin, rfl, ?_, h3, ?_, ?_, ?_, ?_⟩
      · exact Classical.not_not.mp h2
      · exact Classical.not_not.mp h4
      · intro hre
        simp only [Bool.and_eq_true, decide_eq_true_eq, not_and] at h6
        cases hmt : env.matchRegex env.jobRegex p.job_name
        · rfl
        · exact absurd hmt (h6 hre)
      · intro hsv
        simp only [Bool.and_eq_true, decide_eq_true_eq, not_and, Bool.not_eq_true,
          Bool.not_eq_true'] at h7
        exact Bool.eq_true_of_not_eq_false (h7 hsv)
      · intro hgr
        simp only [Bool.and_eq_true, decide_eq_true_eq, not_and, Bool.not_eq_true,
          Bool.not_eq_true'] at h8
        exact Bool.eq_true_of_not_eq_false (h8 hgr)

theorem inv_init (env : UpdateEnv) (input : List ProcData) : Inv env input initState := by
  constructor <;> simp [initState]

theorem inv_runUpdate (env : UpdateEnv) (remote : List ProcData) :
    Inv env (getProcs remote [env.showName] env.selectedAllocs) (runUpdate env remote) :=
  inv_loop env _ _ 0 initState (inv_init env _) (fun _ hp => hp)

/-- Claim C2: during `update`, a host's result row is appended exactly at the
first gathered proc after which the accumulated cores (idle cores plus
reserved cores of gathered procs) reach the minimum-cores setting, the
accumulated memory reaches the minimum-memory setting, and the accumulated
run time stays strictly below the proc-hour cutoff; a host whose gathered
procs never satisfy all three thresholds is never added to the results. -/
theorem update_row_at_first_threshold (env : UpdateEnv) (remote : List ProcData)
    (n : String) (e : HostEntry) (hmem : (n, e) ∈ (runUpdate env remote).hosts) :
    e = entryOf env n e.procs e.ok ∧
    (e.ok = true →
      ((n, e) ∈ (runUpdate env remote).results ∧ meets env e = true ∧
        ∀ k, 0 < k → k < e.procs.length →
          meets env (entryOf env n (e.procs.take k) false) = false)) ∧
    (e.ok = false →
      ((∀ e', (n, e') ∉ (runUpdate env remote).results) ∧
        ∀ k, 0 < k → k ≤ e.procs.length →
          meets env (entryOf env n (e.procs.take k) false) = false)) := by
  have hInv := inv_runUpdate env remote
  refine ⟨hInv.hcons n e hmem, ?_, ?_⟩
  · intro hko
    obtain ⟨hm, hpre⟩ := hInv.hok n e hmem hko
    exact ⟨(hInv.hres n e).mpr ⟨hmem, hko⟩, hm, hpre⟩
  · intro hko
    refine ⟨?_, hInv.hnotok n e hmem hko⟩
    intro e' hr
    obtain ⟨hh, het⟩ := (hInv.hres n e').mp hr
    have h1 := dictGet_eq_some_of_mem hInv.hkeys hh
    have h2 := dictGet_eq_some_of_mem hInv.hkeys hmem
    rw [h1] at h2
    injection h2 with h2
    rw [← h2] at hko
    rw [het] at hko
    simp at hko

/-- Claim C3: the proc listing of `update` is requested restricted to the
selected show and allocations (`getProcs`), and a proc contributes to a host
entry only if its show name equals the selected show, its job name does not
match the non-empty exclude regex, the non-empty required service is among
its services, and, when groups are checked, its group is included. -/
theorem update_filters (env : UpdateEnv) (remote : List ProcData)
    (n : String) (e : HostEntry) (hmem : (n, e) ∈ (runUpdate env remote).hosts)
    (p : ProcData) (hp : p ∈ e.procs) :
    p ∈ getProcs remote [env.showName] env.selectedAllocs ∧
    p.alloc_name ∈ env.selectedAllocs ∧
    p.show_name = env.showName ∧
    (env.jobRegex ≠ "" → env.matchRegex env.jobRegex p.job_name = false) ∧
    (env.serviceFilter ≠ "" → p.services.contains env.serviceFilter = true) ∧
    (env.groupFilter ≠ [] → env.groupFilter.contains p.group_name = true) := by
  have hInv := inv_runUpdate env remote
  obtain ⟨hin, _, hshow, _, _, hre, hsv, hgr⟩ := hInv.hsrc n e hmem p hp
  refine ⟨hin, ?_, hshow, hre, hsv, hgr⟩
  simp only [getProcs, List.mem_filter, Bool.and_eq_true] at hin
  have halloc := hin.2.2
  simpa using halloc

/-- Claim C8: the number of result rows of one `update` run never exceeds
the configured limit, each host appears at most once, and a host's row is
frozen: it equals the host's final dictionary entry. -/
theorem update_limit_and_unique (env : UpdateEnv) (remote : List ProcData) :
    (runUpdate env remote).results.length ≤ env.limit ∧
    ((runUpdate env remote).results.map Prod.fst).Nodup ∧
    (∀ n e, (n, e) ∈ (runUpdate env remote).results →
      dictGet (runUpdate env remote).hosts n = some e) := by
  have hInv := inv_runUpdate env remote
  refine ⟨?_, hInv.hrk, ?_⟩
  · rw [hInv.hcount]
    exact hInv.hle
  · intro n e hr
    exact dictGet_eq_some_of_mem hInv.hkeys ((hInv.hres n e).mp hr).1

/-- Claim C9: no proc gathered into any host entry of `update` has a pending
redirect target, and none runs on the job currently entered as target. -/
theorem update_excludes (env : UpdateEnv) (remote : List ProcData)
    (n : String) (e : HostEntry) (hmem : (n, e) ∈ (runUpdate env remote).hosts)
    (p : ProcData) (hp : p ∈ e.procs) :
    p.redirect_target = "" ∧ p.job_name ≠ env.targetJob := by
  have hInv := inv_runUpdate env remote
  obtain ⟨_, _, _, hjob, hred, _, _, _⟩ := hInv.hsrc n e hmem p hp
  exact ⟨hred, hjob⟩

/-- A concrete proc for witness checks: first frame on host h1. -/
def wProc1 : ProcData :=
  { name := "h1/f1", show_name := "pipe", job_name := "jobA", job_show := "pipe",
    redirect_target := "", services := ["svc"], group_name := "g1",
    reserved_cores := 1, reserved_memory := 2097152, dispatch_time := 50,
    alloc_name := "lax.spinux" }

/-- A concrete proc for witness checks: second frame on host h1. -/
def wProc2 : ProcData := { wProc1 with name := "h1/f2", job_name := "jobB" }

/-- A concrete remote proc table for witness checks. -/
def wRemote : List ProcData := [wProc1, wProc2]

/-- A concrete `update` environment for witness checks: thresholds are met
at the second gathered proc of h1. -/
def wEnv : UpdateEnv :=
  { showName := "pipe", targetJob := "jobT", limit := 10, jobRegex := "",
    matchRegex := fun _ _ => false, serviceFilter := "", groupFilter := [],
    minCores := 2, minMemory := 4194304, cutoffTime := 36000, now := 100,
    findHost := fun _ =>
      { idle_cores := 1, idle_memory := 1048576, alloc_name := "lax.spinux" },
    canceled := fun _ => false, selectedAllocs := ["lax.spinux"] }

/-- The entry `update` builds for h1 in the witness scenario. -/
def wEntry : HostEntry :=
  { procs := [wProc1, wProc2], mem := 5242880, cores := 3, time := 100,
    ok := true, alloc := "lax.spinux" }

/-- Witness for claim C2 at the concrete scenario: h1 is in the dictionary
and its row was appended to the results. -/
theorem update_row_at_first_threshold_witness :
    ("h1", wEntry) ∈ (runUpdate wEnv wRemote).hosts ∧
    ("h1", wEntry) ∈ (runUpdate wEnv wRemote).results :=
  ⟨by decide,
    ((update_row_at_first_threshold wEnv wRemote "h1" wEntry (by decide)).2.1
      (by decide)).1⟩

/-- Witness for claim C3 at the concrete scenario. -/
theorem update_filters_witness :
    wProc1 ∈ getProcs wRemote [wEnv.showName] wEnv.selectedAllocs ∧
    wProc1.show_name = wEnv.showName :=
  ⟨(update_filters wEnv wRemote "h1" wEntry (by decide) wProc1 (by decide)).1,
   (update_filters wEnv wRemote "h1" wEntry (by decide) wProc1 (by decide)).2.2.1⟩

/-- Witness for claim C8 at the concrete scenario. -/
theorem update_limit_and_unique_witness :
    dictGet (runUpdate wEnv wRemote).hosts "h1" = some wEntry :=
  (update_limit_and_unique wEnv wRemote).2.2 "h1" wEntry (by decide)

/-- Witness for claim C9 at the concrete scenario. -/
theorem update_excludes_witness :
    wProc1.redirect_target = "" ∧ wProc1.job_name ≠ wEnv.targetJob :=
  update_excludes wEnv wRemote "h1" wEntry (by decide) wProc1 (by decide)

/-- The data of the target job found by `opencue.api.findJob`: its name and
the show name returned by `job.show()`. -/
structure JobInfo where
  name : String
  showName : String
deriving DecidableEq

/-- The subscription dictionary `__is_burst_safe` builds: keys are the
subscription names with the trailing show-set characters stripped (Python
`rstrip`, a character-set strip), restricted to subscriptions whose
allocation name occurs in the allocation string (Python substring `in`);
later entries override earlier ones as in a Python dict comprehension. -/
def buildSubs (subs : List SubData) (alloc showName : String) :
    List (String × SubData) :=
  subs.foldl
    (fun d s =>
      if pyStrIn s.allocation_name alloc
      then dictSet d (pyRstrip s.name ("." ++ showName)) s
      else d) []

/-- `__is_cross_show_safe`: collect the jobs of procs running on a show
other than the target; with none of them return True without any dialog,
otherwise return the user's answer.  The second component is the job-name
list the dialog displays (`none` when no dialog appears). -/
def isCrossShowSafe (procs : List ProcData) (targetShow : String) (answer : Bool) :
    Bool × Option (List String) :=
  let xshow_jobs := procs.filter (fun p => decide (p.job_show ≠ targetShow))
  if xshow_jobs.isEmpty then (true, none)
  else (answer, some (xshow_jobs.map (fun p => p.job_name)))

/-- `__is_burst_safe`: skip when the configured `wasted_cores_threshold` is
negative; look the target show's subscription up for the allocation; with
no match the Python code evaluates `None.data`, raising `AttributeError`
(the `except TypeError` clause does not catch it, so it escapes); otherwise
compare the wasted cores (cores to redirect minus remaining burst headroom)
against the threshold, asking the user when it is exceeded. -/
def isBurstSafe (threshold : ℤ) (subs : List SubData) (alloc : String)
    (procs : List ProcData) (showName : String) (answer : Bool) :
    Except String Bool :=
  if threshold < 0 then Except.ok true
  else
    match dictGet (buildSubs subs alloc showName) alloc with
    | none => Except.error "AttributeError"
    | some sub =>
      let procs_to_burst : ℤ := sub.burst - sub.reserved_cores
      let procs_to_redirect : ℤ := (procs.map (fun p => p.reserved_cores)).sum
      let wasted_cores : ℤ := procs_to_redirect - procs_to_burst
      if wasted_cores ≤ threshold then Except.ok true
      else Except.ok answer

/-- Claim C6: `__is_cross_show_safe` returns True without prompting when
every proc's job runs on the target show; otherwise it prompts with the
cross-show job names listed and returns the user's answer. -/
theorem cross_show_safe_spec (procs : List ProcData) (targetShow : String)
    (answer : Bool) :
    ((∀ p ∈ procs, p.job_show = targetShow) →
      isCrossShowSafe procs targetShow answer = (true, none)) ∧
    ((∃ p ∈ procs, p.job_show ≠ targetShow) →
      isCrossShowSafe procs targetShow answer =
        (answer, some ((procs.filter (fun p => decide (p.job_show ≠ targetShow))).map
          (fun p => p.job_name)))) := by
  constructor
  · intro hall
    have hemp : procs.filter (fun p => decide (p.job_show ≠ targetShow)) = [] := by
      rw [List.filter_eq_nil_iff]
      intro p hp
      simp [hall p hp]
    simp only [isCrossShowSafe, hemp, List.isEmpty_nil, if_pos]
  · rintro ⟨p, hp, hne⟩
    have hne' : ¬ (procs.filter (fun p => decide (p.job_show ≠ targetShow))).isEmpty = true := by
      rw [List.isEmpty_iff]
      intro hc
      have := List.filter_eq_nil_iff.mp hc p hp
      simp [hne] at this
    simp only [isCrossShowSafe, if_neg hne']

/-- Witness for claim C6: one same-show proc gives True with no dialog; one
cross-show proc gives the dialog answer with its job listed. -/
theorem cross_show_safe_spec_witness :
    isCrossShowSafe [wProc1] "pipe" false = (true, none) ∧
    isCrossShowSafe [wProc1] "other" true = (true, some ["jobA"]) := by
  constructor
  · exact (cross_show_safe_spec [wProc1] "pipe" false).1 (by decide)
  · rw [(cross_show_safe_spec [wProc1] "other" true).2 ⟨wProc1, by decide, by decide⟩]
    decide

/-- Claim C7 (code bug): when the target show has no subscription matching
the allocation, `__is_burst_safe` does not warn and return False as its own
error message intends: `show_subs.get(alloc)` is `None`, `None.data` raises
`AttributeError`, and the `except TypeError` clause does not catch it, so
the exception escapes the check (threshold 100, no subscriptions). -/
theorem burst_safe_missing_sub_raises :
    isBurstSafe 100 [] "lax.spinux" [wProc1] "pipe" true =
      Except.error "AttributeError" := rfl

/-- The inputs of one `RedirectWidget.redirect` run: the result rows (item
text and check state), the `__hosts` dictionary left by the last `update`,
the target job box text, the `findJob` outcome (`none` models
`EntityNotFoundException`), the configured `wasted_cores_threshold`, the
target show's subscriptions, the per-allocation dialog answer oracles, and
which hosts' `redirectToJob` call raises. -/
structure RedirectEnv where
  rows : List (String × Bool)
  hosts : List (String × HostEntry)
  jobName : String
  findJob : Option JobInfo
  threshold : ℤ
  subs : List SubData
  xshowAnswer : String → Bool
  burstAnswer : String → Bool
  redirectFails : String → Bool

/-- The observable outcome of `redirect`: the warnings displayed by
`__warn`, the `redirectToJob` invocations in order (host name, the procs
passed, the target job), the rows marked with the retry icon and disabled,
and the collected per-host errors (identified here by host name). -/
structure RedirectResult where
  warnings : List String
  calls : List (String × List ProcData × JobInfo)
  marked : List String
  errors : List String
deriving DecidableEq

instance {ε α : Type} [DecidableEq ε] [DecidableEq α] : DecidableEq (Except ε α) :=
  fun a b =>
    match a, b with
    | Except.ok x, Except.ok y =>
      if h : x = y then isTrue (by rw [h]) else isFalse (by intro hc; injection hc; exact h (by assumption))
    | Except.error x, Except.error y =>
      if h : x = y then isTrue (by rw [h]) else isFalse (by intro hc; injection hc; exact h (by assumption))
    | Except.ok _, Except.error _ => isFalse (by intro hc; injection hc)
    | Except.error _, Except.ok _ => isFalse (by intro hc; injection hc)

/-- The checked rows of the results model, in row order. -/
def selectedOf (env : RedirectEnv) : List String :=
  (env.rows.filter (fun r => r.2)).map (fun r => r.1)

/-- `__get_selected_procs_by_alloc`: a dict keyed by allocation name whose
values are extended with each selected host's gathered procs, in row order;
a selected row missing from `__hosts` makes `entry.get` run on `None` and
raise `AttributeError`. -/
def allocMapOf (hosts : List (String × HostEntry)) :
    List String → List (String × List ProcData) →
    Except String (List (String × List ProcData))
  | [], acc => Except.ok acc
  | name :: rest, acc =>
    match dictGet hosts name with
    | none => Except.error "AttributeError"
    | some entry =>
      allocMapOf hosts rest
        (dictSet acc entry.alloc ((dictGet acc entry.alloc).getD [] ++ entry.procs))

/-- The safety-check loop of `redirect` over the allocation groups, in dict
order: return at the first check answering False; an exception escaping the
burst check propagates. -/
def runChecks (env : RedirectEnv) (showName : String) :
    List (String × List ProcData) → Except String Bool
  | [] => Except.ok true
  | (alloc, procs) :: rest =>
    if (isCrossShowSafe procs showName (env.xshowAnswer alloc)).1 = false then
      Except.ok false
    else
      match isBurstSafe env.threshold env.subs alloc procs showName
          (env.burstAnswer alloc) with
      | Except.error e => Except.error e
      | Except.ok false => Except.ok false
      | Except.ok true => runChecks env showName rest

/-- The redirect loop of `redirect`: for each selected row in order, look
the entry up (a missing entry fails with an uncaught `TypeError` from
subscripting `None`), invoke `host.redirectToJob(procs, job)`, collect the
error when the call raises, and mark the row regardless of success. -/
def redirectLoop (env : RedirectEnv) (job : JobInfo) :
    List String → (List (String × List ProcData × JobInfo) × List String × List String) →
    Except String (List (String × List ProcData × JobInfo) × List String × List String)
  | [], acc => Except.ok acc
  | name :: rest, (calls, errs, marked) =>
    match dictGet env.hosts name with
    | none => Except.error "TypeError"
    | some entry =>
      redirectLoop env job rest
        (calls ++ [(name, entry.procs, job)],
         (if env.redirectFails name then errs ++ [name] else errs),
         marked ++ [name])

/-- `RedirectWidget.redirect`: selection and target-job validation, the
per-allocation safety gates, then the redirect loop and the final failure
warning.  A `none` `findJob` models `EntityNotFoundException`; its handler
calls the nonexistent method `__warn_and_stop`, so it raises
`AttributeError` instead of warning. -/
def redirect (env : RedirectEnv) : Except String RedirectResult :=
  if selectedOf env = [] then
    Except.ok { warnings := ["You have not selected anything to redirect."]
              , calls := [], marked := [], errors := [] }
  else if env.jobName = "" then
    Except.ok { warnings := ["You must have a job name selected."]
              , calls := [], marked := [], errors := [] }
  else
    match env.findJob with
    | none => Except.error "AttributeError"
    | some job =>
      match allocMapOf env.hosts (selectedOf env) [] with
      | Except.error e => Except.error e
      | Except.ok m =>
        match runChecks env job.showName m with
        | Except.error e => Except.error e
        | Except.ok false =>
          Except.ok { warnings := [], calls := [], marked := [], errors := [] }
        | Except.ok true =>
          match redirectLoop env job (selectedOf env) ([], [], []) with
          | Except.error e => Except.error e
          | Except.ok (calls, errs, marked) =>
            Except.ok { warnings := if errs = [] then []
                                    else ["Some procs failed to redirect."]
                      , calls := calls, marked := marked, errors := errs }

/-- A successful check loop means both checks answered True on every
allocation group. -/
theorem runChecks_ok_true (env : RedirectEnv) (showName : String) :
    ∀ m, runChecks env showName m = Except.ok true →
      ∀ ap ∈ m,
        (isCrossShowSafe ap.2 showName (env.xshowAnswer ap.1)).1 = true ∧
        isBurstSafe env.threshold env.subs ap.1 ap.2 showName
          (env.burstAnswer ap.1) = Except.ok true := by
  intro m
  induction m with
  | nil =>
    intro _ ap hap
    exact absurd hap (List.not_mem_nil ap)
  | cons hd rest ih =>
    obtain ⟨alloc, procs⟩ := hd
    intro h ap hap
    rw [runChecks] at h
    by_cases hc : (isCrossShowSafe procs showName (env.xshowAnswer alloc)).1 = false
    · rw [if_pos hc] at h
      exact absurd h (by simp)
    · rw [if_neg hc] at h
      cases hb : isBurstSafe env.threshold env.subs alloc procs showName
          (env.burstAnswer alloc) with
      | error e =>
        rw [hb] at h
        exact absurd h (by simp)
      | ok b =>
        cases b
        · rw [hb] at h
          exact absurd h (by simp)
        · rw [hb] at h
          rcases List.mem_cons.mp hap with hap1 | hap1
          · subst hap1
            refine ⟨?_, hb⟩
            cases hcv : (isCrossShowSafe procs showName (env.xshowAnswer alloc)).1
            · exact absurd hcv hc
            · rfl
          · exact ih h ap hap1

/-- Claim C1: with items selected and an existing target job, `redirect`
invokes no `redirectToJob` unless both safety checks returned True for
every allocation group of the selected procs; when some group's check
returns False the run redirects nothing. -/
theorem redirect_gated_on_checks (env : RedirectEnv) (res : RedirectResult)
    (h : redirect env = Except.ok res) :
    (res.calls ≠ [] →
      ∃ job m, env.findJob = some job ∧
        allocMapOf env.hosts (selectedOf env) [] = Except.ok m ∧
        ∀ ap ∈ m,
          (isCrossShowSafe ap.2 job.showName (env.xshowAnswer ap.1)).1 = true ∧
          isBurstSafe env.threshold env.subs ap.1 ap.2 job.showName
            (env.burstAnswer ap.1) = Except.ok true) ∧
    (∀ job m, env.findJob = some job →
      allocMapOf env.hosts (selectedOf env) [] = Except.ok m →
      (∃ ap ∈ m,
        ¬((isCrossShowSafe ap.2 job.showName (env.xshowAnswer ap.1)).1 = true ∧
          isBurstSafe env.threshold env.subs ap.1 ap.2 job.showName
            (env.burstAnswer ap.1) = Except.ok true)) →
      res.calls = []) := by
  unfold redirect at h
  split at h
  · have hres : res.calls = [] := by
      injection h with h1
      rw [← h1]
    exact ⟨fun hne => absurd hres hne, fun _ _ _ _ _ => hres⟩
  · split at h
    · have hres : res.calls = [] := by
        injection h with h1
        rw [← h1]
      exact ⟨fun hne => absurd hres hne, fun _ _ _ _ _ => hres⟩
    · split at h
      · exact absurd h (by simp)
      · rename_i job hjob
        split at h
        · exact absurd h (by simp)
        · rename_i m hmap
          split at h
          · exact absurd h (by simp)
          · rename_i hchecks
            have hres : res.calls = [] := by
              injection h with h1
              rw [← h1]
            refine ⟨fun hne => absurd hres hne, fun _ _ _ _ _ => hres⟩
          · rename_i hchecks
            split at h
            · exact absurd h (by simp)
            · constructor
              · intro _
                exact ⟨job, m, hjob, hmap, runChecks_ok_true env job.showName m hchecks⟩
              · intro job' m' hjob' hmap' ⟨ap, hap, hnot⟩
                rw [hjob] at hjob'
                injection hjob' with hjob'
                rw [hmap] at hmap'
                injection hmap' with hmap'
                subst hjob'
                subst hmap'
                exact absurd (runChecks_ok_true env job.showName m hchecks ap hap) hnot

/-- The redirect loop visits every remaining selected row in order when all
rows are in the dictionary: each produces one `redirectToJob` invocation
and one marked row, and exactly the failing hosts produce errors. -/
theorem redirectLoop_ok (env : RedirectEnv) (job : JobInfo) (names : List String) :
    ∀ (calls : List (String × List ProcData × JobInfo)) (errs marked : List String),
      (∀ nm ∈ names, (dictGet env.hosts nm).isSome) →
      redirectLoop env job names (calls, errs, marked) =
        Except.ok
          (calls ++ names.map
            (fun nm => (nm, ((dictGet env.hosts nm).getD default).procs, job)),
           errs ++ names.filter (fun nm => env.redirectFails nm),
           marked ++ names) := by
  induction names with
  | nil =>
    intro calls errs marked _
    simp [redirectLoop]
  | cons nm rest ih =>
    intro calls errs marked hfound
    have hs := hfound nm (List.mem_cons_self ..)
    cases hget : dictGet env.hosts nm with
    | none =>
      rw [hget] at hs
      simp at hs
    | some entry =>
      rw [redirectLoop, hget]
      dsimp only
      rw [ih _ _ _ (fun x hx => hfound x (List.mem_cons_of_mem _ hx))]
      by_cases hf : env.redirectFails nm = true
      · simp [hget, List.filter_cons, hf, List.append_assoc]
      · simp only [Bool.not_eq_true] at hf
        simp [hget, List.filter_cons, hf, List.append_assoc]

/-- Claim C5: when validation succeeds, every safety check passes and every
selected row is in the dictionary, `redirect` attempts `redirectToJob` for
every checked row in order, passing that host's gathered procs and the
found target job; a per-host failure stops none of the remaining hosts,
every processed row is marked, and the single failure warning appears
exactly when at least one call raised. -/
theorem redirect_attempts_all (env : RedirectEnv) (job : JobInfo)
    (m : List (String × List ProcData))
    (hsel : selectedOf env ≠ [])
    (hname : env.jobName ≠ "")
    (hjob : env.findJob = some job)
    (hmap : allocMapOf env.hosts (selectedOf env) [] = Except.ok m)
    (hchecks : runChecks env job.showName m = Except.ok true)
    (hfound : ∀ nm ∈ selectedOf env, (dictGet env.hosts nm).isSome) :
    redirect env = Except.ok
      { warnings := if (selectedOf env).filter (fun nm => env.redirectFails nm) = []
                    then [] else ["Some procs failed to redirect."]
      , calls := (selectedOf env).map
          (fun nm => (nm, ((dictGet env.hosts nm).getD default).procs, job))
      , marked := selectedOf env
      , errors := (selectedOf env).filter (fun nm => env.redirectFails nm) } := by
  unfold redirect
  rw [if_neg hsel, if_neg hname]
  simp only [hjob, hmap, hchecks]
  rw [redirectLoop_ok env job (selectedOf env) [] [] [] hfound]
  simp

/-- A subscription of show pipe on the lax.spinux allocation; the Python
`rstrip` key computation strips the trailing show characters back to the
allocation name. -/
def wSub : SubData :=
  { name := "lax.spinux.pipe", allocation_name := "lax.spinux",
    burst := 100, reserved_cores := 0 }

/-- The target job of the witness redirect scenario. -/
def wJob : JobInfo := { name := "jobT", showName := "pipe" }

/-- A concrete `redirect` environment: one checked row for h1 whose
`redirectToJob` raises; both safety checks pass. -/
def wRedirectEnv : RedirectEnv :=
  { rows := [("h1", true)], hosts := [("h1", wEntry)], jobName := "jobT",
    findJob := some wJob, threshold := 100, subs := [wSub],
    xshowAnswer := fun _ => true, burstAnswer := fun _ => true,
    redirectFails := fun _ => true }

/-- The outcome of `redirect` on the witness environment. -/
def wRedirectRes : RedirectResult :=
  { warnings := ["Some procs failed to redirect."]
  , calls := [("h1", [wProc1, wProc2], wJob)]
  , marked := ["h1"], errors := ["h1"] }

/-- Witness for claim C1: in the concrete passing run both checks returned
True for the single allocation group. -/
theorem redirect_gated_on_checks_witness :
    ∃ job m, wRedirectEnv.findJob = some job ∧
      allocMapOf wRedirectEnv.hosts (selectedOf wRedirectEnv) [] = Except.ok m ∧
      ∀ ap ∈ m,
        (isCrossShowSafe ap.2 job.showName (wRedirectEnv.xshowAnswer ap.1)).1 = true ∧
        isBurstSafe wRedirectEnv.threshold wRedirectEnv.subs ap.1 ap.2 job.showName
          (wRedirectEnv.burstAnswer ap.1) = Except.ok true :=
  (redirect_gated_on_checks wRedirectEnv wRedirectRes (by decide)).1 (by decide)

/-- Witness for claim C5: the failing h1 is still called, marked, collected
as error, and the failure warning shows. -/
theorem redirect_attempts_all_witness :
    redirect wRedirectEnv = Except.ok wRedirectRes := by
  have h := redirect_attempts_all wRedirectEnv wJob [("lax.spinux", [wProc1, wProc2])]
    (by decide) (by decide) (by decide) (by decide) (by decide) (by decide)
  rw [h]
  decide

/-- Claim C4 (code bug): with a selection and an empty target job name,
`redirect` warns and stops without any `redirectToJob`; but when the target
job no longer exists (`findJob` raises `EntityNotFoundException`) the
handler calls the undefined method `__warn_and_stop`, so an
`AttributeError` propagates and no warning dialog is displayed (nothing is
redirected either way). -/
theorem redirect_missing_target_behaviour :
    redirect { wRedirectEnv with jobName := "" } =
      Except.ok { warnings := ["You must have a job name selected."]
                , calls := [], marked := [], errors := [] } ∧
    redirect { wRedirectEnv with findJob := none } =
      Except.error "AttributeError" := by
  decide

/-- The control state `detect` writes: the cores spin box (a `QSpinBox`,
integer), the memory spin box (a `QDoubleSpinBox`, GB), and the current
index of the show combo. -/
structure Controls where
  coresValue : ℤ
  memValue : ℚ
  showIndex : ℤ
deriving DecidableEq

/-- The configured spin-box ranges (`setRange(1, max_cores)` and
`setRange(1, max_memory)` in the `RedirectControls` constructor) and the
item list of the show combo. -/
structure DetectCfg where
  maxCores : ℤ
  maxMemory : ℚ
  comboItems : List String

/-- Qt `QAbstractSpinBox.setValue` clamps the assigned value to the
configured range (integer spin box). -/
def clampI (lo hi v : ℤ) : ℤ := max lo (min hi v)

/-- Qt `QAbstractSpinBox.setValue` clamps the assigned value to the
configured range (double spin box). -/
def clampQ (lo hi v : ℚ) : ℚ := max lo (min hi v)

/-- Helper for `findText`: index scan carrying the position. -/
def findTextAux : List String → String → ℤ → ℤ
  | [], _, _ => -1
  | x :: rest, s, i => if x = s then i else findTextAux rest s (i + 1)

/-- Qt `QComboBox.findText`: the index of the first matching item, `-1`
when the text is absent. -/
def findText (items : List String) (s : String) : ℤ := findTextAux items s 0

/-- The job data `detect` reads after `findJob` succeeds: the layer list
(via `job.getLayers()`) and `job.data.show`. -/
structure DetectJob where
  layers : List LayerData
  jobShow : String
deriving DecidableEq

/-- `RedirectControls.detect`: on a successful job lookup, scan the layers
for the largest `min_cores` (starting from 1.0) and the largest
`min_memory` (starting from 0), set the cores spin box to `int()` of the
former, the memory spin box to the latter divided by 1048576.0, and point
the show combo at the job's show; a `CueException` from the lookup (`none`)
leaves every control unchanged.  The two `setValue` calls clamp to the
configured ranges (Qt semantics). -/
def detect (cfg : DetectCfg) (found : Option DetectJob) (c : Controls) : Controls :=
  match found with
  | none => c
  | some job =>
    let minCores : ℚ :=
      job.layers.foldl (fun acc l => if acc < l.min_cores then l.min_cores else acc) 1
    let minMem : ℤ :=
      job.layers.foldl (fun acc l => if acc < l.min_memory then l.min_memory else acc) 0
    { coresValue := clampI 1 cfg.maxCores (pyInt minCores)
    , memValue := clampQ 1 cfg.maxMemory ((minMem : ℚ) / 1048576)
    , showIndex := findText cfg.comboItems job.jobShow }

theorem if_lt_eq_max {β : Type} [LinearOrder β] (a b : β) :
    (if a < b then b else a) = max a b := by
  rcases le_or_lt b a with h | h
  · rw [max_eq_left h, if_neg (not_lt.mpr h)]
  · rw [max_eq_right h.le, if_pos h]

/-- The conditional-update scan of `detect` computes a running maximum. -/
theorem foldl_if_lt_max {γ β : Type} [LinearOrder β] (g : γ → β) (l : List γ) :
    ∀ a : β, l.foldl (fun acc x => if acc < g x then g x else acc) a =
      (l.map g).foldl max a := by
  induction l with
  | nil => intro a; simp
  | cons x rest ih =>
    intro a
    simp only [List.foldl_cons, List.map_cons]
    rw [if_lt_eq_max, ih]

/-- The configuration of the counterexample and witness scenarios for
`detect`: default ranges, one show in the combo. -/
def wCfg : DetectCfg := { maxCores := 32, maxMemory := 200, comboItems := ["pipe"] }

/-- A job whose layers ask for no memory at all. -/
def wDetectJob : DetectJob :=
  { layers := [{ min_cores := 1, min_memory := 0 }], jobShow := "pipe" }

/-- An arbitrary prior control state. -/
def wControls : Controls := { coresValue := 1, memValue := 4, showIndex := 0 }

/-- Counterexample to claim C10 as stated: for a job whose largest layer
`min_memory` is 0, the claimed spin value 0 / 1048576 = 0 is below the
memory spin box's minimum of 1, so `setValue` clamps and the control shows
1, not 0. -/
theorem detect_clamp_counterexample :
    (detect wCfg (some wDetectJob) wControls).memValue = 1 ∧
    (((wDetectJob.layers.foldl
        (fun acc l => if acc < l.min_memory then l.min_memory else acc) 0 : ℤ) : ℚ)
      / 1048576 = 0) := by
  constructor
  · show clampQ 1 wCfg.maxMemory (((0 : ℤ) : ℚ) / 1048576) = 1
    norm_num [clampQ]
  · norm_num [wDetectJob]

/-- Claim C10 (amended): when the job lookup raises, `detect` changes
nothing; otherwise it sets the cores spin box to the integer part of the
largest layer `min_cores` (never below 1.0), the memory spin box to the
largest layer `min_memory` divided by 1048576, each clamped by `setValue`
to its configured range, and the show combo index to the index of the
job's show (-1 when absent). -/
theorem detect_spec (cfg : DetectCfg) (job : DetectJob) (c : Controls) :
    detect cfg none c = c ∧
    (detect cfg (some job) c).coresValue =
      clampI 1 cfg.maxCores (pyInt ((job.layers.map LayerData.min_cores).foldl max 1)) ∧
    (detect cfg (some job) c).memValue =
      clampQ 1 cfg.maxMemory
        ((((job.layers.map LayerData.min_memory).foldl max 0 : ℤ) : ℚ) / 1048576) ∧
    (detect cfg (some job) c).showIndex = findText cfg.comboItems job.jobShow := by
  refine ⟨rfl, ?_, ?_, rfl⟩
  · simp only [detect]
    rw [foldl_if_lt_max]
  · simp only [detect]
    rw [foldl_if_lt_max]

end Redirect
